import Mathlib

/-!
Shallow embedding of `src/synthesize.py` from the `voice_app` repository.

* `split_text_smart` embeds the chunker (lines 47-76 of `synthesize.py`).
* `get_ffmpeg_path` embeds ffmpeg discovery (lines 11-45); the filesystem,
  `imageio_ffmpeg` and `shutil.which` are abstracted as an `FsEnv` record.
* `synthesize_text_to_mp3` embeds the orchestrator (lines 143-214); the two
  external engines are abstracted as per-chunk outcome oracles, and a run
  records the synthesis calls, the progress-callback values and the ffmpeg
  concat invocation, so ordering and trace properties can be stated.

Text is modelled as `List Char` (Python strings are sequences of code points,
and Python `len` counts code points); progress fractions are modelled as `ℚ`
(exact values of the `(idx + 1) / total_chunks` divisions the code performs).
-/

/-- Embeds Python `s.replace(c, c + '|')` for a single character `c`
(the three `replace` calls on line 57 of `synthesize.py` all have this
shape): every occurrence of `c` gets a `'|'` inserted right after it. -/
def pyReplace (c : Char) : List Char → List Char
  | [] => []
  | x :: xs => if x = c then x :: '|' :: pyReplace c xs else x :: pyReplace c xs

/-- Embeds Python `s.split(sep)` for a one-character separator:
`"".split(sep) == [""]`, and every separator occurrence starts a new field. -/
def splitOnChar (sep : Char) : List Char → List (List Char)
  | [] => [[]]
  | x :: xs =>
    if x = sep then [] :: splitOnChar sep xs
    else
      match splitOnChar sep xs with
      | [] => [[x]]
      | s :: ss => (x :: s) :: ss

/-- Line 57 of `synthesize.py`:
`text.replace('!', '!|').replace('?', '?|').replace('.', '.|').split('|')`. -/
def sentencesOf (text : List Char) : List (List Char) :=
  splitOnChar '|' (pyReplace '.' (pyReplace '?' (pyReplace '!' text)))

/-- Lines 68-69 of `synthesize.py`:
`for i in range(0, len(sentence), max_chars): chunks.append(sentence[i:i+max_chars])`.
For `m = 0` and a nonempty sentence, Python `range` would raise `ValueError`;
the claims only concern positive bounds, so that case returns `[]` here. -/
def hardSplit (m : Nat) (s : List Char) : List (List Char) :=
  if h : s = [] ∨ m = 0 then []
  else s.take m :: hardSplit m (s.drop m)
termination_by s.length
decreasing_by
  push_neg at h
  have hs : 0 < s.length := List.length_pos.mpr h.1
  simp only [List.length_drop]
  omega

/-- The sentence-accumulation loop of `split_text_smart`
(lines 54-74 of `synthesize.py`); `chunks` and `current` are the loop state
(`chunks` and `current_chunk` in the source). -/
def accumulate (m : Nat) : List (List Char) → List (List Char) → List Char → List (List Char)
  | [], chunks, current => if current = [] then chunks else chunks ++ [current]
  | s :: rest, chunks, current =>
    if current.length + s.length ≤ m then
      accumulate m rest chunks (current ++ s)
    else
      if s.length > m then
        accumulate m rest ((if current = [] then chunks else chunks ++ [current]) ++ hardSplit m s) []
      else
        accumulate m rest (if current = [] then chunks else chunks ++ [current]) s

/-- The constant `MAX_CHARS` (line 9 of `synthesize.py`). -/
def MAX_CHARS : Nat := 2000

/-- The chunker `split_text_smart` (lines 47-76 of `synthesize.py`). -/
def split_text_smart (text : List Char) (max_chars : Nat) : List (List Char) :=
  if text.length ≤ max_chars then [text]
  else accumulate max_chars (sentencesOf text) [] []

example : split_text_smart "Hello world.".data 100 = ["Hello world.".data] := by decide

example : split_text_smart "ab|cd".data 3 = ["ab".data, "cd".data] := by decide

example :
    split_text_smart "This is sentence one. This is sentence two.".data 26 =
      ["This is sentence one.".data, " This is sentence two.".data] := by decide

lemma splitOnChar_ne_nil (sep : Char) (l : List Char) : splitOnChar sep l ≠ [] := by
  cases l with
  | nil => simp [splitOnChar]
  | cons x xs =>
    simp only [splitOnChar]
    by_cases hx : x = sep
    · simp [hx]
    · simp only [if_neg hx]
      cases splitOnChar sep xs <;> simp

lemma flatten_splitOnChar (sep : Char) (l : List Char) :
    (splitOnChar sep l).flatten = l.filter (fun c => !(c == sep)) := by
  induction l with
  | nil => simp [splitOnChar]
  | cons x xs ih =>
    by_cases hx : x = sep
    · subst hx
      simp [splitOnChar, ih]
    · have hne := splitOnChar_ne_nil sep xs
      cases hsp : splitOnChar sep xs with
      | nil => exact absurd hsp hne
      | cons s ss =>
        rw [hsp] at ih
        simp only [splitOnChar, if_neg hx, hsp, List.flatten_cons, List.filter_cons] at ih ⊢
        simp [hx, ← ih]

lemma filter_pyReplace (c : Char) (hc : c ≠ '|') (l : List Char) :
    (pyReplace c l).filter (fun x => !(x == '|')) = l.filter (fun x => !(x == '|')) := by
  induction l with
  | nil => rfl
  | cons x xs ih =>
    by_cases hx : x = c
    · subst hx
      simp [pyReplace, List.filter_cons, hc, ih]
    · simp [pyReplace, hx, List.filter_cons, ih]

lemma flatten_sentencesOf (text : List Char) :
    (sentencesOf text).flatten = text.filter (fun c => !(c == '|')) := by
  unfold sentencesOf
  rw [flatten_splitOnChar, filter_pyReplace _ (by decide), filter_pyReplace _ (by decide),
    filter_pyReplace _ (by decide)]

lemma flatten_hardSplit_aux (m : Nat) (hm : 0 < m) :
    ∀ (n : Nat) (s : List Char), s.length ≤ n → (hardSplit m s).flatten = s := by
  intro n
  induction n with
  | zero =>
    intro s hs
    have hz : s = [] := List.eq_nil_of_length_eq_zero (Nat.le_zero.mp hs)
    subst hz
    unfold hardSplit
    simp
  | succ n ih =>
    intro s hs
    unfold hardSplit
    by_cases h : s = [] ∨ m = 0
    · rcases h with h | h
      · subst h; simp
      · omega
    · rw [dif_neg h]
      push_neg at h
      rw [List.flatten_cons, ih (s.drop m) (by simp only [List.length_drop]; omega)]
      exact List.take_append_drop m s

lemma flatten_hardSplit (m : Nat) (hm : 0 < m) (s : List Char) :
    (hardSplit m s).flatten = s :=
  flatten_hardSplit_aux m hm s.length s le_rfl

lemma flatten_accumulate (m : Nat) (hm : 0 < m) :
    ∀ (ss chunks : List (List Char)) (current : List Char),
      (accumulate m ss chunks current).flatten = chunks.flatten ++ current ++ ss.flatten := by
  intro ss
  induction ss with
  | nil =>
    intro chunks current
    by_cases hc : current = [] <;> simp [accumulate, hc]
  | cons s rest ih =>
    intro chunks current
    simp only [accumulate]
    by_cases h1 : current.length + s.length ≤ m
    · rw [if_pos h1, ih]
      simp [List.append_assoc]
    · rw [if_neg h1]
      by_cases h2 : s.length > m
      · rw [if_pos h2, ih]
        by_cases hc : current = [] <;>
          simp [hc, flatten_hardSplit m hm, List.append_assoc]
      · rw [if_neg h2, ih]
        by_cases hc : current = [] <;> simp [hc, List.append_assoc]

lemma flatten_split_text_smart (text : List Char) (m : Nat) (hm : 0 < m) :
    (split_text_smart text m).flatten =
      if text.length ≤ m then text else text.filter (fun c => !(c == '|')) := by
  unfold split_text_smart
  by_cases h : text.length ≤ m
  · simp [h]
  · simp [h, flatten_accumulate m hm, flatten_sentencesOf]

lemma hardSplit_length_le_aux (m : Nat) :
    ∀ (n : Nat) (s : List Char), s.length ≤ n → ∀ c ∈ hardSplit m s, c.length ≤ m := by
  intro n
  induction n with
  | zero =>
    intro s hs c hc
    have hz : s = [] := List.eq_nil_of_length_eq_zero (Nat.le_zero.mp hs)
    subst hz
    unfold hardSplit at hc
    simp at hc
  | succ n ih =>
    intro s hs c hc
    unfold hardSplit at hc
    by_cases h : s = [] ∨ m = 0
    · rw [dif_pos h] at hc
      simp at hc
    · rw [dif_neg h] at hc
      push_neg at h
      rcases List.mem_cons.mp hc with hc | hc
      · subst hc
        simp [List.length_take]
      · exact ih (s.drop m) (by simp only [List.length_drop]; omega) c hc

lemma hardSplit_length_le (m : Nat) (s : List Char) :
    ∀ c ∈ hardSplit m s, c.length ≤ m :=
  hardSplit_length_le_aux m s.length s le_rfl

lemma accumulate_length_le (m : Nat) :
    ∀ (ss chunks : List (List Char)) (current : List Char),
      (∀ c ∈ chunks, c.length ≤ m) → current.length ≤ m →
      ∀ c ∈ accumulate m ss chunks current, c.length ≤ m := by
  intro ss
  induction ss with
  | nil =>
    intro chunks current hch hcur c hc
    simp only [accumulate] at hc
    by_cases hcn : current = []
    · rw [if_pos hcn] at hc
      exact hch c hc
    · rw [if_neg hcn] at hc
      rcases List.mem_append.mp hc with hc | hc
      · exact hch c hc
      · simp at hc
        subst hc
        exact hcur
  | cons s rest ih =>
    intro chunks current hch hcur c hc
    simp only [accumulate] at hc
    by_cases h1 : current.length + s.length ≤ m
    · rw [if_pos h1] at hc
      exact ih chunks (current ++ s) hch (by simpa using h1) c hc
    · rw [if_neg h1] at hc
      have hflush : ∀ d ∈ (if current = [] then chunks else chunks ++ [current]), d.length ≤ m := by
        intro d hd
        by_cases hcn : current = []
        · rw [if_pos hcn] at hd
          exact hch d hd
        · rw [if_neg hcn] at hd
          rcases List.mem_append.mp hd with hd | hd
          · exact hch d hd
          · simp at hd
            subst hd
            exact hcur
      by_cases h2 : s.length > m
      · rw [if_pos h2] at hc
        refine ih _ [] ?_ (by simp) c hc
        intro d hd
        rcases List.mem_append.mp hd with hd | hd
        · exact hflush d hd
        · exact hardSplit_length_le m s d hd
      · rw [if_neg h2] at hc
        exact ih _ s hflush (by omega) c hc

/-- C3: for every input text whose length is strictly below the bound,
`split_text_smart` returns the single chunk `[text]` (the `len(text) <= max_chars`
short-circuit on lines 51-52 of `synthesize.py`). -/
theorem splitTextSmart_short_single (text : List Char) (m : Nat) (h : text.length < m) :
    split_text_smart text m = [text] := by
  unfold split_text_smart
  rw [if_pos (Nat.le_of_lt h)]

theorem splitTextSmart_short_single_witness :
    "Hello world.".data.length < 100 ∧
      split_text_smart "Hello world.".data 100 = ["Hello world.".data] :=
  ⟨by decide, splitTextSmart_short_single _ 100 (by decide)⟩

/-- C10: the short-circuit of `split_text_smart` also applies when the text
length is exactly equal to the bound (`<=` comparison on line 51), so a text of
length exactly `max_chars` comes back as one unchanged chunk. -/
theorem splitTextSmart_boundary_single (text : List Char) (m : Nat) (h : text.length = m) :
    split_text_smart text m = [text] := by
  unfold split_text_smart
  rw [if_pos (Nat.le_of_eq h)]

theorem splitTextSmart_boundary_single_witness :
    "abcd".data.length = 4 ∧ split_text_smart "abcd".data 4 = ["abcd".data] :=
  ⟨by decide, splitTextSmart_boundary_single _ 4 (by decide)⟩

/-- C2: for every text and every positive bound, every chunk returned by
`split_text_smart` has length at most the bound; in particular the hard-split
pieces of an over-long sentence (lines 67-69 of `synthesize.py`) also respect
the bound. -/
theorem splitTextSmart_chunk_length_le (text : List Char) (m : Nat) (_hm : 0 < m) :
    ∀ c ∈ split_text_smart text m, c.length ≤ m := by
  intro c hc
  unfold split_text_smart at hc
  by_cases h : text.length ≤ m
  · rw [if_pos h] at hc
    simp at hc
    subst hc
    exact h
  · rw [if_neg h] at hc
    exact accumulate_length_le m (sentencesOf text) [] [] (by simp) (by simp) c hc

theorem splitTextSmart_chunk_length_le_witness :
    ("ab".data ∈ split_text_smart "ab|cd".data 3) ∧ ("ab".data).length ≤ 3 :=
  ⟨by decide, splitTextSmart_chunk_length_le "ab|cd".data 3 (by decide) "ab".data (by decide)⟩

/-- C1 (amended): for every positive bound and every input text that does not
contain the internal separator character `'|'`, concatenating the chunks of
`split_text_smart` in order reconstructs the text exactly.  (For text longer
than the bound that does contain `'|'`, the `split('|')` on line 57 of
`synthesize.py` silently deletes those characters, so exact reconstruction
fails; see the counterexample.) -/
theorem splitTextSmart_concat_restores (text : List Char) (m : Nat) (hm : 0 < m)
    (hbar : ∀ c ∈ text, c ≠ '|') :
    (split_text_smart text m).flatten = text := by
  rw [flatten_split_text_smart text m hm]
  by_cases h : text.length ≤ m
  · rw [if_pos h]
  · rw [if_neg h]
    apply List.filter_eq_self.mpr
    intro c hc
    simpa using hbar c hc

theorem splitTextSmart_concat_restores_witness :
    (split_text_smart "Hi. Yo.".data 5).flatten = "Hi. Yo.".data :=
  splitTextSmart_concat_restores _ 5 (by decide) (by decide)

/-- C1 counterexample: chunking `"ab|cd"` with bound `3` yields `["ab", "cd"]`
(the `'|'` is consumed by the `split('|')` on line 57), so the concatenation of
the chunks is `"abcd"`, not the original input: splitting loses `'|'`
characters of the input. -/
theorem splitTextSmart_concat_cex :
    split_text_smart "ab|cd".data 3 = ["ab".data, "cd".data] ∧
      (split_text_smart "ab|cd".data 3).flatten ≠ "ab|cd".data := by decide

/-- Abstraction of the process environment seen by `get_ffmpeg_path`
(lines 11-45 of `synthesize.py`):
* `imageio` is the result of `imageio_ffmpeg.get_ffmpeg_exe()` (`none` models
  an `ImportError` of `imageio_ffmpeg`),
* `whichFfmpeg` is the result of `shutil.which("ffmpeg")`,
* `fsExists` is `os.path.exists`,
* `homeFfmpeg` is `os.path.expanduser("~\\ffmpeg\\bin\\ffmpeg.exe")`. -/
structure FsEnv where
  imageio : Option String
  whichFfmpeg : Option String
  fsExists : String → Bool
  homeFfmpeg : String

/-- The error conditions `synthesize_text_to_mp3` and its helpers can raise:
`FileNotFoundError` for missing ffmpeg, `RuntimeError` from the Edge-TTS CLI
retry loop, `RuntimeError` from the gTTS fallback, `ValueError` for no
generated chunks, and `RuntimeError` from ffmpeg concatenation. -/
inductive TtsError where
  | ffmpegNotFound
  | edgeTtsFailed
  | gttsFailed
  | noChunks
  | concatFailed
deriving DecidableEq

/-- The `common_paths` list (lines 32-36 of `synthesize.py`). -/
def commonPaths (env : FsEnv) : List String :=
  ["C:\\ffmpeg\\bin\\ffmpeg.exe", "C:\\Program Files\\ffmpeg\\bin\\ffmpeg.exe", env.homeFfmpeg]

/-- The tail of `get_ffmpeg_path` (lines 38-45): scan `common_paths` for the
first path that exists, else raise `FileNotFoundError`. -/
def scanCommonPaths (env : FsEnv) : Except TtsError String :=
  match (commonPaths env).find? env.fsExists with
  | some p => .ok p
  | none => .error .ffmpegNotFound

/-- The `shutil.which` step of `get_ffmpeg_path` (lines 27-29): a truthy
result is returned as-is, otherwise fall through to `common_paths`. -/
def whichStep (env : FsEnv) : Except TtsError String :=
  match env.whichFfmpeg with
  | some cmd => if cmd = "" then scanCommonPaths env else .ok cmd
  | none => scanCommonPaths env

/-- Discovery function `get_ffmpeg_path` (lines 11-45 of `synthesize.py`): try `imageio_ffmpeg`
(result must be truthy and exist on disk), then `shutil.which`, then the
fixed `common_paths`; raise `FileNotFoundError` when all fail. -/
def get_ffmpeg_path (env : FsEnv) : Except TtsError String :=
  match env.imageio with
  | some cmd => if cmd ≠ "" ∧ env.fsExists cmd = true then .ok cmd else whichStep env
  | none => whichStep env

/-- Outcome of one external synthesis call for one chunk, as observed by the
orchestrator: the call either returns normally (`success file`, where `file`
is `some size` when an output file of `size` bytes now exists at the target
path and `none` when no file was created), or raises (`failure`; for the
primary engine this is the `RuntimeError` thrown after the 3-attempt retry
loop of `_synthesize_chunk`, lines 91-114, and for the fallback it is the
`RuntimeError` of `_synthesize_chunk_gtts`, lines 134-141). -/
inductive SynthOutcome where
  | success (file : Option Nat)
  | failure
deriving DecidableEq

/-- One recorded external synthesis call: which engine was invoked, for which
chunk index. -/
inductive SynthEvent where
  | primary (idx : Nat)
  | fallback (idx : Nat)
deriving DecidableEq

/-- The chunk index of a synthesis call. -/
def SynthEvent.index : SynthEvent → Nat
  | .primary i => i
  | .fallback i => i

/-- Abstraction of the external world for one `synthesize_text_to_mp3` run:
`primary i` / `fallbackEngine i` are the outcomes of calling Edge-TTS / gTTS
for chunk `i`, and `concatOk` tells whether the final ffmpeg concat
subprocess exits with status 0. -/
structure SynthEnv where
  fs : FsEnv
  primary : Nat → SynthOutcome
  fallbackEngine : Nat → SynthOutcome
  concatOk : Bool

/-- Python `c in string.whitespace`-style check backing `str.strip()`
(ASCII whitespace as stripped by `strip()` on a typical input). -/
def isPyWhitespace (c : Char) : Bool :=
  c = ' ' || c = '\t' || c = '\n' || c = '\r' || c = '\x0b' || c = '\x0c'

/-- Embeds Python `not chunk.strip()`: the string is empty or all whitespace. -/
def pyBlank (s : List Char) : Bool := s.all isPyWhitespace

/-- State of the per-chunk loop of `synthesize_text_to_mp3` (lines 152-182):
`useFallback` and `files` are `use_fallback` and `chunk_files` in the source
(files are tracked by chunk index); `events` and `progress` record the
external synthesis calls made and the values passed to `progress_callback`. -/
structure LoopState where
  useFallback : Bool
  files : List Nat
  events : List SynthEvent
  progress : List ℚ

/-- One non-blank chunk's synthesis (lines 165-176 of `synthesize.py`):
returns the recorded calls, and either the raised error or the pair
`(use_fallback after this chunk, whether the chunk file now exists)`. -/
def synthesizeStep (env : SynthEnv) (idx : Nat) (useFb : Bool) :
    List SynthEvent × Except TtsError (Bool × Bool) :=
  if useFb then
    ([.fallback idx],
      match env.fallbackEngine idx with
      | .success f => .ok (true, f.isSome)
      | .failure => .error .gttsFailed)
  else
    match env.primary idx with
    | .success f => ([.primary idx], .ok (false, f.isSome))
    | .failure =>
      ([.primary idx, .fallback idx],
        match env.fallbackEngine idx with
        | .success f => .ok (true, f.isSome)
        | .failure => .error .gttsFailed)

/-- The `for idx, chunk in enumerate(chunks)` loop (lines 159-182 of
`synthesize.py`).  Blank chunks are skipped entirely (`continue` on line 161,
which also skips the progress callback); otherwise the chunk is synthesized,
its file is appended to `chunk_files` iff it exists (line 178, an
existence-only check), and `progress_callback((idx + 1) / total_chunks)` is
invoked.  A raised synthesis error aborts the remaining loop. -/
def runChunks (env : SynthEnv) (total : Nat) :
    Nat → List (List Char) → LoopState → LoopState × Option TtsError
  | _, [], st => (st, none)
  | idx, chunk :: rest, st =>
    if pyBlank chunk then runChunks env total (idx + 1) rest st
    else
      match synthesizeStep env idx st.useFallback with
      | (evs, .error e) => ({ st with events := st.events ++ evs }, some e)
      | (evs, .ok (fb, hasFile)) =>
        runChunks env total (idx + 1) rest
          { useFallback := fb
            files := if hasFile then st.files ++ [idx] else st.files
            events := st.events ++ evs
            progress := st.progress ++ [((idx : ℚ) + 1) / (total : ℚ)] }

instance {ε α : Type} [DecidableEq ε] [DecidableEq α] : DecidableEq (Except ε α) := fun x y =>
  match x, y with
  | .error e, .error f =>
    if h : e = f then isTrue (by rw [h]) else isFalse (fun hc => h (by injection hc))
  | .error _, .ok _ => isFalse (fun hc => Except.noConfusion hc)
  | .ok _, .error _ => isFalse (fun hc => Except.noConfusion hc)
  | .ok a, .ok b =>
    if h : a = b then isTrue (by rw [h]) else isFalse (fun hc => h (by injection hc))

/-- Observable outcome of one `synthesize_text_to_mp3` run: the returned
value or raised error (`result` carries the ordered chunk indices whose
files make up the final mp3), the synthesis calls issued, the progress
fractions reported, and the file list handed to the ffmpeg concat subprocess
(`none` when concatenation was never invoked). -/
structure RunOut where
  result : Except TtsError (List Nat)
  events : List SynthEvent
  progress : List ℚ
  concatCall : Option (List Nat)
deriving DecidableEq

/-- The orchestrator `synthesize_text_to_mp3` (lines 143-214 of `synthesize.py`): locate
ffmpeg, chunk the text with the hard-coded `MAX_CHARS` bound, run the
per-chunk loop, raise `ValueError` when no chunk file was produced, and
otherwise concatenate the collected chunk files with ffmpeg. -/
def synthesize_text_to_mp3 (env : SynthEnv) (text : List Char) : RunOut :=
  match get_ffmpeg_path env.fs with
  | .error e => ⟨.error e, [], [], none⟩
  | .ok _ =>
    let chunks := split_text_smart text MAX_CHARS
    let total := chunks.length
    match runChunks env total 0 chunks ⟨false, [], [], []⟩ with
    | (st, some e) => ⟨.error e, st.events, st.progress, none⟩
    | (st, none) =>
      if st.files = [] then ⟨.error .noChunks, st.events, st.progress, none⟩
      else if env.concatOk then ⟨.ok st.files, st.events, st.progress, some st.files⟩
      else ⟨.error .concatFailed, st.events, st.progress, some st.files⟩

/-- Embeds Python `enumerate` starting at `n`. -/
def enumFrom {α : Type} (n : Nat) : List α → List (Nat × α)
  | [] => []
  | x :: xs => (n, x) :: enumFrom (n + 1) xs

lemma get_ffmpeg_path_error_eq (env : FsEnv) (e : TtsError)
    (h : get_ffmpeg_path env = .error e) : e = .ffmpegNotFound := by
  unfold get_ffmpeg_path whichStep scanCommonPaths at h
  repeat' split at h
  all_goals simp_all

lemma synthesize_eq (env : SynthEnv) (p : String) (text : List Char)
    (cs : List (List Char)) (hff : get_ffmpeg_path env.fs = .ok p)
    (hsp : split_text_smart text MAX_CHARS = cs) :
    synthesize_text_to_mp3 env text =
      match runChunks env cs.length 0 cs ⟨false, [], [], []⟩ with
      | (st, some e) => ⟨.error e, st.events, st.progress, none⟩
      | (st, none) =>
        if st.files = [] then ⟨.error .noChunks, st.events, st.progress, none⟩
        else if env.concatOk then ⟨.ok st.files, st.events, st.progress, some st.files⟩
        else ⟨.error .concatFailed, st.events, st.progress, some st.files⟩ := by
  unfold synthesize_text_to_mp3
  rw [hff, hsp]

/-- C7: ffmpeg discovery tries, in order, the bundled resolver (usable when it
returns a truthy path that exists), then the search path, then the fixed
`common_paths` list, returning the first hit; when every source fails the
error is `FileNotFoundError`, and `synthesize_text_to_mp3` then fails
immediately: no synthesis call, no progress event and no concat call is made. -/
theorem ffmpeg_discovery_order (env : SynthEnv) (text : List Char) :
    (∀ cmd, env.fs.imageio = some cmd → cmd ≠ "" → env.fs.fsExists cmd = true →
        get_ffmpeg_path env.fs = .ok cmd) ∧
    ((∀ cmd, env.fs.imageio = some cmd → cmd = "" ∨ env.fs.fsExists cmd = false) →
      ∀ q, env.fs.whichFfmpeg = some q → q ≠ "" → get_ffmpeg_path env.fs = .ok q) ∧
    ((∀ cmd, env.fs.imageio = some cmd → cmd = "" ∨ env.fs.fsExists cmd = false) →
      (∀ q, env.fs.whichFfmpeg = some q → q = "") →
      get_ffmpeg_path env.fs =
        match (commonPaths env.fs).find? env.fs.fsExists with
        | some p => .ok p
        | none => .error .ffmpegNotFound) ∧
    (∀ e, get_ffmpeg_path env.fs = .error e →
      e = .ffmpegNotFound ∧ synthesize_text_to_mp3 env text = ⟨.error e, [], [], none⟩) := by
  refine ⟨?_, ?_, ?_, ?_⟩
  · intro cmd him hne hex
    unfold get_ffmpeg_path
    rw [him]
    simp [hne, hex]
  · intro him q hw hq
    unfold get_ffmpeg_path whichStep
    cases him' : env.fs.imageio with
    | none =>
      rw [hw]
      simp [hq]
    | some cmd =>
      have hni : ¬(cmd ≠ "" ∧ env.fs.fsExists cmd = true) := by
        rcases him cmd him' with h | h
        · intro hc; exact hc.1 h
        · intro hc; rw [hc.2] at h; cases h
      rw [hw]
      simp [hni, hq]
  · intro him hwq
    unfold get_ffmpeg_path whichStep scanCommonPaths
    cases him' : env.fs.imageio with
    | none =>
      cases hw : env.fs.whichFfmpeg with
      | none => rfl
      | some q => simp [hwq q hw]
    | some cmd =>
      have hni : ¬(cmd ≠ "" ∧ env.fs.fsExists cmd = true) := by
        rcases him cmd him' with h | h
        · intro hc; exact hc.1 h
        · intro hc; rw [hc.2] at h; cases h
      simp only [hni, if_false]
      cases hw : env.fs.whichFfmpeg with
      | none => simp
      | some q => simp [hwq q hw]
  · intro e he
    refine ⟨get_ffmpeg_path_error_eq env.fs e he, ?_⟩
    unfold synthesize_text_to_mp3
    rw [he]

lemma all_chunks_blank (text : List Char) (hb : pyBlank text = true) :
    ∀ c ∈ split_text_smart text MAX_CHARS, pyBlank c = true := by
  intro c hc
  unfold pyBlank at hb ⊢
  rw [List.all_eq_true] at hb ⊢
  intro ch hch
  apply hb
  have hfl : ch ∈ (split_text_smart text MAX_CHARS).flatten :=
    List.mem_flatten.mpr ⟨c, hc, hch⟩
  rw [flatten_split_text_smart text MAX_CHARS (by decide)] at hfl
  by_cases h : text.length ≤ MAX_CHARS
  · rw [if_pos h] at hfl
    exact hfl
  · rw [if_neg h] at hfl
    exact (List.mem_filter.mp hfl).1

lemma runChunks_all_blank (env : SynthEnv) (total : Nat) :
    ∀ (lst : List (List Char)) (idx : Nat) (st : LoopState),
      (∀ c ∈ lst, pyBlank c = true) → runChunks env total idx lst st = (st, none) := by
  intro lst
  induction lst with
  | nil => intro idx st _; rfl
  | cons c rest ih =>
    intro idx st h
    have hc : pyBlank c = true := h c (List.mem_cons_self c rest)
    simp only [runChunks, hc, if_true]
    exact ih (idx + 1) st (fun d hd => h d (List.mem_cons_of_mem c hd))

/-- C6: when the input text is empty or all-whitespace (and ffmpeg is
located), `synthesize_text_to_mp3` raises the input-error `ValueError`
("No audio chunks generated!"), and no synthesis call, no progress event and
no concatenation call is issued: every blank chunk is skipped before any
external call. -/
theorem blankInput_failsFast (env : SynthEnv) (text : List Char) (p : String)
    (hff : get_ffmpeg_path env.fs = .ok p) (hb : pyBlank text = true) :
    synthesize_text_to_mp3 env text = ⟨.error .noChunks, [], [], none⟩ := by
  rw [synthesize_eq env p text _ hff rfl,
    runChunks_all_blank env _ _ 0 ⟨false, [], [], []⟩ (all_chunks_blank text hb)]
  rfl

/-- Shape invariant of the synthesis-call trace produced by the chunk loop,
read left to right: in state `b = false` (`use_fallback` not yet set) a chunk
either succeeds on the primary engine (one `primary` call, state stays
`false`) or fails on it (a `primary` call immediately followed by a
`fallback` call for the same chunk, state becomes `true`); in state
`b = true` only `fallback` calls occur.  `n` is a lower bound on the chunk
indices still to come. -/
inductive GoodTrace (env : SynthEnv) : Bool → Nat → List SynthEvent → Prop where
  | nil : ∀ b n, GoodTrace env b n []
  | primOk : ∀ n i f Δ, n ≤ i → env.primary i = .success f →
      GoodTrace env false (i + 1) Δ → GoodTrace env false n (.primary i :: Δ)
  | degrade : ∀ n i Δ, n ≤ i → env.primary i = .failure →
      GoodTrace env true (i + 1) Δ →
      GoodTrace env false n (.primary i :: .fallback i :: Δ)
  | fb : ∀ n i Δ, n ≤ i → GoodTrace env true (i + 1) Δ →
      GoodTrace env true n (.fallback i :: Δ)

lemma GoodTrace.mono (env : SynthEnv) (b : Bool) (m n : Nat) (Δ : List SynthEvent)
    (h : GoodTrace env b m Δ) (hnm : n ≤ m) : GoodTrace env b n Δ := by
  cases h with
  | nil => exact .nil b n
  | primOk m i f Δ hle hs ht => exact .primOk n i f Δ (le_trans hnm hle) hs ht
  | degrade m i Δ hle hs ht => exact .degrade n i Δ (le_trans hnm hle) hs ht
  | fb m i Δ hle ht => exact .fb n i Δ (le_trans hnm hle) ht

lemma GoodTrace.allFb (env : SynthEnv) (n : Nat) (Δ : List SynthEvent)
    (h : GoodTrace env true n Δ) : ∀ e ∈ Δ, ∃ i, e = .fallback i := by
  generalize hb : true = b at h
  induction h with
  | nil => intro e he; cases he
  | primOk n i f Δ hle hs ht ih => cases hb
  | degrade n i Δ hle hs ht ih => cases hb
  | fb n i Δ hle ht ih =>
    intro e he
    rcases List.mem_cons.mp he with he | he
    · exact ⟨i, he⟩
    · exact ih rfl e he

lemma runChunks_goodTrace (env : SynthEnv) (total : Nat) :
    ∀ (lst : List (List Char)) (idx : Nat) (st : LoopState),
      ∃ Δ, (runChunks env total idx lst st).1.events = st.events ++ Δ ∧
        GoodTrace env st.useFallback idx Δ := by
  intro lst
  induction lst with
  | nil => intro idx st; exact ⟨[], by simp [runChunks], .nil _ _⟩
  | cons c rest ih =>
    intro idx st
    cases hb : pyBlank c with
    | true =>
      obtain ⟨Δ, h1, h2⟩ := ih (idx + 1) st
      have hr : runChunks env total idx (c :: rest) st =
          runChunks env total (idx + 1) rest st := by
        simp [runChunks, hb]
      exact ⟨Δ, by rw [hr]; exact h1,
        GoodTrace.mono env st.useFallback (idx + 1) idx Δ h2 (Nat.le_succ idx)⟩
    | false =>
      cases hfb : st.useFallback with
      | true =>
        cases hfo : env.fallbackEngine idx with
        | success f =>
          have hstep : synthesizeStep env idx st.useFallback =
              ([.fallback idx], .ok (true, f.isSome)) := by
            simp [synthesizeStep, hfb, hfo]
          have hr : runChunks env total idx (c :: rest) st =
              runChunks env total (idx + 1) rest
                { useFallback := true
                  files := if f.isSome then st.files ++ [idx] else st.files
                  events := st.events ++ [.fallback idx]
                  progress := st.progress ++ [((idx : ℚ) + 1) / (total : ℚ)] } := by
            simp [runChunks, hb, hstep]
          obtain ⟨Δ, h1, h2⟩ := ih (idx + 1)
            { useFallback := true
              files := if f.isSome then st.files ++ [idx] else st.files
              events := st.events ++ [.fallback idx]
              progress := st.progress ++ [((idx : ℚ) + 1) / (total : ℚ)] }
          refine ⟨.fallback idx :: Δ, ?_, ?_⟩
          · rw [hr, h1]
            simp
          · exact .fb idx idx Δ le_rfl h2
        | failure =>
          have hstep : synthesizeStep env idx st.useFallback =
              ([.fallback idx], .error .gttsFailed) := by
            simp [synthesizeStep, hfb, hfo]
          have hr : runChunks env total idx (c :: rest) st =
              ({ st with events := st.events ++ [.fallback idx] }, some .gttsFailed) := by
            simp [runChunks, hb, hstep]
          refine ⟨[.fallback idx], by rw [hr], ?_⟩
          exact .fb idx idx [] le_rfl (.nil _ _)
      | false =>
        cases hpo : env.primary idx with
        | success f =>
          have hstep : synthesizeStep env idx st.useFallback =
              ([.primary idx], .ok (false, f.isSome)) := by
            simp [synthesizeStep, hfb, hpo]
          have hr : runChunks env total idx (c :: rest) st =
              runChunks env total (idx + 1) rest
                { useFallback := false
                  files := if f.isSome then st.files ++ [idx] else st.files
                  events := st.events ++ [.primary idx]
                  progress := st.progress ++ [((idx : ℚ) + 1) / (total : ℚ)] } := by
            simp [runChunks, hb, hstep]
          obtain ⟨Δ, h1, h2⟩ := ih (idx + 1)
            { useFallback := false
              files := if f.isSome then st.files ++ [idx] else st.files
              events := st.events ++ [.primary idx]
              progress := st.progress ++ [((idx : ℚ) + 1) / (total : ℚ)] }
          refine ⟨.primary idx :: Δ, ?_, ?_⟩
          · rw [hr, h1]
            simp
          · exact .primOk idx idx f Δ le_rfl hpo h2
        | failure =>
          cases hfo : env.fallbackEngine idx with
          | success f =>
            have hstep : synthesizeStep env idx st.useFallback =
                ([.primary idx, .fallback idx], .ok (true, f.isSome)) := by
              simp [synthesizeStep, hfb, hpo, hfo]
            have hr : runChunks env total idx (c :: rest) st =
                runChunks env total (idx + 1) rest
                  { useFallback := true
                    files := if f.isSome then st.files ++ [idx] else st.files
                    events := st.events ++ [.primary idx, .fallback idx]
                    progress := st.progress ++ [((idx : ℚ) + 1) / (total : ℚ)] } := by
              simp [runChunks, hb, hstep]
            obtain ⟨Δ, h1, h2⟩ := ih (idx + 1)
              { useFallback := true
                files := if f.isSome then st.files ++ [idx] else st.files
                events := st.events ++ [.primary idx, .fallback idx]
                progress := st.progress ++ [((idx : ℚ) + 1) / (total : ℚ)] }
            refine ⟨.primary idx :: .fallback idx :: Δ, ?_, ?_⟩
            · rw [hr, h1]
              simp
            · exact .degrade idx idx Δ le_rfl hpo h2
          | failure =>
            have hstep : synthesizeStep env idx st.useFallback =
                ([.primary idx, .fallback idx], .error .gttsFailed) := by
              simp [synthesizeStep, hfb, hpo, hfo]
            have hr : runChunks env total idx (c :: rest) st =
                ({ st with events := st.events ++ [.primary idx, .fallback idx] },
                  some .gttsFailed) := by
              simp [runChunks, hb, hstep]
            refine ⟨[.primary idx, .fallback idx], by rw [hr], ?_⟩
            exact .degrade idx idx [] le_rfl hpo (.nil _ _)

lemma synthesize_goodTrace (env : SynthEnv) (text : List Char) :
    GoodTrace env false 0 (synthesize_text_to_mp3 env text).events := by
  cases hff : get_ffmpeg_path env.fs with
  | error e =>
    have hz : synthesize_text_to_mp3 env text = ⟨.error e, [], [], none⟩ := by
      unfold synthesize_text_to_mp3
      rw [hff]
    rw [hz]
    exact .nil _ _
  | ok p =>
    rw [synthesize_eq env p text _ hff rfl]
    obtain ⟨Δ, h1, h2⟩ := runChunks_goodTrace env (split_text_smart text MAX_CHARS).length
      (split_text_smart text MAX_CHARS) 0 ⟨false, [], [], []⟩
    cases hrc : runChunks env (split_text_smart text MAX_CHARS).length 0
        (split_text_smart text MAX_CHARS) ⟨false, [], [], []⟩ with
    | mk st err =>
      rw [hrc] at h1
      simp only [List.nil_append] at h1
      cases err with
      | some e =>
        simpa [h1] using h2
      | none =>
        by_cases hfi : st.files = []
        · simpa [hfi, h1] using h2
        · by_cases hco : env.concatOk = true
          · simpa [hfi, hco, h1] using h2
          · simpa [hfi, hco, h1] using h2

lemma goodTrace_no_primary_after (env : SynthEnv) (b : Bool) (n : Nat) (Δ : List SynthEvent)
    (h : GoodTrace env b n Δ) :
    ∀ l1 i l2, Δ = l1 ++ SynthEvent.fallback i :: l2 → ∀ j, SynthEvent.primary j ∉ l2 := by
  induction h with
  | nil =>
    intro l1 i l2 hdec j
    exact absurd hdec (by cases l1 <;> simp)
  | primOk n i f Δ hle hs ht ih =>
    intro l1 i' l2 hdec j
    cases l1 with
    | nil => simp at hdec
    | cons a l1' =>
      simp only [List.cons_append, List.cons.injEq] at hdec
      exact ih l1' i' l2 hdec.2 j
  | degrade n i Δ hle hs ht ih =>
    intro l1 i' l2 hdec j hmem
    have hall := GoodTrace.allFb env (i + 1) Δ ht
    cases l1 with
    | nil =>
      simp only [List.nil_append, List.cons.injEq] at hdec
      exact absurd hdec.1 (by simp)
    | cons a l1' =>
      simp only [List.cons_append, List.cons.injEq] at hdec
      cases l1' with
      | nil =>
        simp only [List.nil_append, List.cons.injEq] at hdec
        rcases hall (SynthEvent.primary j) (hdec.2.2 ▸ hmem) with ⟨k, hk⟩
        simp at hk
      | cons a' l1'' =>
        simp only [List.cons_append, List.cons.injEq] at hdec
        have hin : SynthEvent.primary j ∈ Δ := by
          rw [hdec.2.2]
          exact List.mem_append_right _ (List.mem_cons_of_mem _ hmem)
        rcases hall _ hin with ⟨k, hk⟩
        simp at hk
  | fb n i Δ hle ht ih =>
    intro l1 i' l2 hdec j hmem
    have hall := GoodTrace.allFb env (i + 1) Δ ht
    cases l1 with
    | nil =>
      simp only [List.nil_append, List.cons.injEq] at hdec
      rcases hall _ (hdec.2 ▸ hmem) with ⟨k, hk⟩
      simp at hk
    | cons a l1' =>
      simp only [List.cons_append, List.cons.injEq] at hdec
      have hin : SynthEvent.primary j ∈ Δ := by
        rw [hdec.2]
        exact List.mem_append_right _ (List.mem_cons_of_mem _ hmem)
      rcases hall _ hin with ⟨k, hk⟩
      simp at hk

lemma goodTrace_primary_failure_shape (env : SynthEnv) (b : Bool) (n : Nat)
    (Δ : List SynthEvent) (h : GoodTrace env b n Δ) :
    ∀ l1 i l2, Δ = l1 ++ SynthEvent.primary i :: l2 → env.primary i = .failure →
      ∃ l3, l2 = SynthEvent.fallback i :: l3 := by
  induction h with
  | nil =>
    intro l1 i l2 hdec _
    exact absurd hdec (by cases l1 <;> simp)
  | primOk n i f Δ hle hs ht ih =>
    intro l1 i' l2 hdec hfail
    cases l1 with
    | nil =>
      simp only [List.nil_append, List.cons.injEq] at hdec
      have hii : i = i' := by
        have := hdec.1
        simp only [SynthEvent.primary.injEq] at this
        exact this
      rw [← hii, hs] at hfail
      cases hfail
    | cons a l1' =>
      simp only [List.cons_append, List.cons.injEq] at hdec
      exact ih l1' i' l2 hdec.2 hfail
  | degrade n i Δ hle hs ht ih =>
    intro l1 i' l2 hdec hfail
    have hall := GoodTrace.allFb env (i + 1) Δ ht
    cases l1 with
    | nil =>
      simp only [List.nil_append, List.cons.injEq] at hdec
      have hii : i = i' := by
        have := hdec.1
        simp only [SynthEvent.primary.injEq] at this
        exact this
      exact ⟨Δ, by rw [← hdec.2, ← hii]⟩
    | cons a l1' =>
      simp only [List.cons_append, List.cons.injEq] at hdec
      cases l1' with
      | nil =>
        simp only [List.nil_append, List.cons.injEq] at hdec
        exact absurd hdec.2.1 (by simp)
      | cons a' l1'' =>
        simp only [List.cons_append, List.cons.injEq] at hdec
        have hin : SynthEvent.primary i' ∈ Δ := by
          rw [hdec.2.2]
          exact List.mem_append_right _ (List.mem_cons_self _ _)
        rcases hall _ hin with ⟨k, hk⟩
        simp at hk
  | fb n i Δ hle ht ih =>
    intro l1 i' l2 hdec hfail
    have hall := GoodTrace.allFb env (i + 1) Δ ht
    cases l1 with
    | nil =>
      simp only [List.nil_append, List.cons.injEq] at hdec
      exact absurd hdec.1 (by simp)
    | cons a l1' =>
      simp only [List.cons_append, List.cons.injEq] at hdec
      have hin : SynthEvent.primary i' ∈ Δ := by
        rw [hdec.2]
        exact List.mem_append_right _ (List.mem_cons_self _ _)
      rcases hall _ hin with ⟨k, hk⟩
      simp at hk

lemma goodTrace_sorted (env : SynthEnv) (b : Bool) (n : Nat) (Δ : List SynthEvent)
    (h : GoodTrace env b n Δ) :
    (∀ e ∈ Δ, n ≤ e.index) ∧
      List.Pairwise (fun e e' => e.index ≤ e'.index) Δ := by
  induction h with
  | nil => exact ⟨fun e he => absurd he (by simp), List.Pairwise.nil⟩
  | primOk n i f Δ hle hs ht ih =>
    constructor
    · intro e he
      rcases List.mem_cons.mp he with he | he
      · rw [he]
        exact hle
      · exact le_trans hle (le_trans (Nat.le_succ i) (ih.1 e he))
    · rw [List.pairwise_cons]
      exact ⟨fun e' he' => le_trans (Nat.le_succ i) (ih.1 e' he'), ih.2⟩
  | degrade n i Δ hle hs ht ih =>
    constructor
    · intro e he
      rcases List.mem_cons.mp he with he | he
      · rw [he]
        exact hle
      · rcases List.mem_cons.mp he with he | he
        · rw [he]
          exact hle
        · exact le_trans hle (le_trans (Nat.le_succ i) (ih.1 e he))
    · rw [List.pairwise_cons, List.pairwise_cons]
      refine ⟨?_, ?_, ih.2⟩
      · intro e' he'
        rcases List.mem_cons.mp he' with he' | he'
        · rw [he']
          exact le_rfl
        · exact le_trans (Nat.le_succ i) (ih.1 e' he')
      · intro e' he'
        exact le_trans (Nat.le_succ i) (ih.1 e' he')
  | fb n i Δ hle ht ih =>
    constructor
    · intro e he
      rcases List.mem_cons.mp he with he | he
      · rw [he]
        exact hle
      · exact le_trans hle (le_trans (Nat.le_succ i) (ih.1 e he))
    · rw [List.pairwise_cons]
      exact ⟨fun e' he' => le_trans (Nat.le_succ i) (ih.1 e' he'), ih.2⟩

/-- C5: within one `synthesize_text_to_mp3` request, once the primary engine
has failed (after its retries) for some chunk, the primary engine is never
invoked again: every synthesis call after the first fallback call is a
fallback call; the chunk whose primary call failed is immediately retried
with the fallback engine; and the synthesis calls are issued in chunk order
(chunk indices of the call trace are monotone). -/
theorem degradeOnce_sticky_fallback (env : SynthEnv) (text : List Char) :
    (∀ l1 i l2, (synthesize_text_to_mp3 env text).events =
        l1 ++ SynthEvent.fallback i :: l2 → ∀ j, SynthEvent.primary j ∉ l2) ∧
    (∀ l1 i l2, (synthesize_text_to_mp3 env text).events =
        l1 ++ SynthEvent.primary i :: l2 → env.primary i = .failure →
        ∃ l3, l2 = SynthEvent.fallback i :: l3) ∧
    List.Pairwise (fun e e' => e.index ≤ e'.index)
      (synthesize_text_to_mp3 env text).events := by
  have h := synthesize_goodTrace env text
  exact ⟨goodTrace_no_primary_after env false 0 _ h,
    goodTrace_primary_failure_shape env false 0 _ h,
    (goodTrace_sorted env false 0 _ h).2⟩

lemma enumFrom_lb {α : Type} (l : List α) :
    ∀ (n : Nat), ∀ p ∈ enumFrom n l, n ≤ p.1 ∧ p.1 < n + l.length := by
  induction l with
  | nil => intro n p hp; cases hp
  | cons x xs ih =>
    intro n p hp
    simp only [enumFrom] at hp
    rcases List.mem_cons.mp hp with hp | hp
    · rw [hp]
      exact ⟨le_rfl, by simp⟩
    · rcases ih (n + 1) p hp with ⟨h1, h2⟩
      refine ⟨le_trans (Nat.le_succ n) h1, ?_⟩
      simp only [List.length_cons]
      omega

lemma enumFrom_pairwise {α : Type} (l : List α) :
    ∀ (n : Nat), List.Pairwise (fun p q : Nat × α => p.1 < q.1) (enumFrom n l) := by
  induction l with
  | nil => intro n; exact .nil
  | cons x xs ih =>
    intro n
    simp only [enumFrom]
    rw [List.pairwise_cons]
    refine ⟨?_, ih (n + 1)⟩
    intro q hq
    have h1 := (enumFrom_lb xs (n + 1) q hq).1
    exact lt_of_lt_of_le (Nat.lt_succ_self n) h1

lemma runChunks_progress (env : SynthEnv) (total : Nat) :
    ∀ (lst : List (List Char)) (idx : Nat) (st : LoopState),
      (runChunks env total idx lst st).2 = none →
      (runChunks env total idx lst st).1.progress =
        st.progress ++ ((enumFrom idx lst).filter (fun p => !(pyBlank p.2))).map
          (fun p => ((p.1 : ℚ) + 1) / (total : ℚ)) := by
  intro lst
  induction lst with
  | nil => intro idx st _; simp [runChunks, enumFrom]
  | cons c rest ih =>
    intro idx st hnone
    cases hb : pyBlank c with
    | true =>
      have hr : runChunks env total idx (c :: rest) st =
          runChunks env total (idx + 1) rest st := by
        simp [runChunks, hb]
      rw [hr] at hnone ⊢
      rw [ih (idx + 1) st hnone]
      simp [enumFrom, List.filter_cons, hb]
    | false =>
      rcases hstep : synthesizeStep env idx st.useFallback with ⟨evs, res⟩
      cases res with
      | error e =>
        have hr : runChunks env total idx (c :: rest) st =
            ({ st with events := st.events ++ evs }, some e) := by
          simp [runChunks, hb, hstep]
        rw [hr] at hnone
        simp at hnone
      | ok pr =>
        rcases pr with ⟨fb, hasFile⟩
        have hr : runChunks env total idx (c :: rest) st =
            runChunks env total (idx + 1) rest
              { useFallback := fb
                files := if hasFile then st.files ++ [idx] else st.files
                events := st.events ++ evs
                progress := st.progress ++ [((idx : ℚ) + 1) / (total : ℚ)] } := by
          simp [runChunks, hb, hstep]
        rw [hr] at hnone ⊢
        rw [ih (idx + 1) _ hnone]
        simp [enumFrom, List.filter_cons, hb]

lemma runChunks_files_success (env : SynthEnv) (total : Nat) (f : Nat → Option Nat)
    (hp : ∀ i, env.primary i = .success (f i)) :
    ∀ (lst : List (List Char)) (idx : Nat) (st : LoopState), st.useFallback = false →
      (runChunks env total idx lst st).1.files =
        st.files ++ ((enumFrom idx lst).filter
          (fun p => !(pyBlank p.2) && (f p.1).isSome)).map Prod.fst ∧
      (runChunks env total idx lst st).2 = none := by
  intro lst
  induction lst with
  | nil => intro idx st _; constructor <;> simp [runChunks, enumFrom]
  | cons c rest ih =>
    intro idx st hfb
    cases hb : pyBlank c with
    | true =>
      have hr : runChunks env total idx (c :: rest) st =
          runChunks env total (idx + 1) rest st := by
        simp [runChunks, hb]
      rw [hr]
      have hih := ih (idx + 1) st hfb
      refine ⟨?_, hih.2⟩
      rw [hih.1]
      simp [enumFrom, List.filter_cons, hb]
    | false =>
      have hstep : synthesizeStep env idx st.useFallback =
          ([.primary idx], .ok (false, (f idx).isSome)) := by
        simp [synthesizeStep, hfb, hp idx]
      have hr : runChunks env total idx (c :: rest) st =
          runChunks env total (idx + 1) rest
            { useFallback := false
              files := if (f idx).isSome then st.files ++ [idx] else st.files
              events := st.events ++ [.primary idx]
              progress := st.progress ++ [((idx : ℚ) + 1) / (total : ℚ)] } := by
        simp [runChunks, hb, hstep]
      rw [hr]
      have hih := ih (idx + 1)
        { useFallback := false
          files := if (f idx).isSome then st.files ++ [idx] else st.files
          events := st.events ++ [.primary idx]
          progress := st.progress ++ [((idx : ℚ) + 1) / (total : ℚ)] } rfl
      refine ⟨?_, hih.2⟩
      rw [hih.1]
      cases hfs : (f idx).isSome with
      | true => simp [enumFrom, List.filter_cons, hb, hfs, List.append_assoc]
      | false => simp [enumFrom, List.filter_cons, hb, hfs]

lemma result_ok_elim (env : SynthEnv) (text : List Char) (files : List Nat)
    (hok : (synthesize_text_to_mp3 env text).result = .ok files) :
    ∃ p st, get_ffmpeg_path env.fs = .ok p ∧
      runChunks env (split_text_smart text MAX_CHARS).length 0
        (split_text_smart text MAX_CHARS) ⟨false, [], [], []⟩ = (st, none) ∧
      st.files = files ∧ files ≠ [] ∧ env.concatOk = true ∧
      synthesize_text_to_mp3 env text = ⟨.ok files, st.events, st.progress, some files⟩ := by
  cases hff : get_ffmpeg_path env.fs with
  | error e =>
    have hz : synthesize_text_to_mp3 env text = ⟨.error e, [], [], none⟩ := by
      unfold synthesize_text_to_mp3
      rw [hff]
    rw [hz] at hok
    simp at hok
  | ok p =>
    have heq := synthesize_eq env p text _ hff rfl
    cases hrc : runChunks env (split_text_smart text MAX_CHARS).length 0
        (split_text_smart text MAX_CHARS) ⟨false, [], [], []⟩ with
    | mk st err =>
      rw [hrc] at heq
      cases err with
      | some e =>
        rw [heq] at hok
        simp at hok
      | none =>
        by_cases hfi : st.files = []
        · rw [heq] at hok
          simp [hfi] at hok
        · by_cases hco : env.concatOk = true
          · rw [heq] at hok
            simp only [hfi, if_false, hco, if_true] at hok
            have hok' : st.files = files := by
              simpa using hok
            subst hok'
            refine ⟨p, st, rfl, rfl, rfl, hfi, hco, ?_⟩
            rw [heq]
            simp [hfi, hco]
          · rw [heq] at hok
            simp [hfi, hco] at hok

/-- C8 (amended): on a run of `synthesize_text_to_mp3` that returns
successfully, the progress callback is invoked with `(idx + 1) / total_chunks`
exactly once per *non-blank* chunk, in chunk order (blank chunks are skipped
by the `continue` on line 161 together with their progress event); the
reported values are strictly increasing and lie in `(0, 1]`.  The sequence
ends at exactly `1.0` only when the final chunk is non-blank — a trailing
blank chunk makes the final reported value fall short of `1.0` (see the
counterexample). -/
theorem progress_fraction_per_nonblank_chunk (env : SynthEnv) (text : List Char)
    (files : List Nat) (hok : (synthesize_text_to_mp3 env text).result = .ok files) :
    (synthesize_text_to_mp3 env text).progress =
      ((enumFrom 0 (split_text_smart text MAX_CHARS)).filter
        (fun p => !(pyBlank p.2))).map
        (fun p => ((p.1 : ℚ) + 1) / ((split_text_smart text MAX_CHARS).length : ℚ)) ∧
    List.Pairwise (fun a b : ℚ => a < b) (synthesize_text_to_mp3 env text).progress ∧
    ∀ q ∈ (synthesize_text_to_mp3 env text).progress, 0 < q ∧ q ≤ 1 := by
  obtain ⟨p, st, hff, hrc, hsf, hne, hco, heq⟩ := result_ok_elim env text files hok
  have hprog : (synthesize_text_to_mp3 env text).progress = st.progress := by
    rw [heq]
  have hrp := runChunks_progress env (split_text_smart text MAX_CHARS).length
    (split_text_smart text MAX_CHARS) 0 ⟨false, [], [], []⟩ (by rw [hrc])
  rw [hrc] at hrp
  simp only [List.nil_append] at hrp
  have hchne : split_text_smart text MAX_CHARS ≠ [] := by
    intro hz
    rw [hz] at hrc
    simp only [runChunks, Prod.mk.injEq] at hrc
    apply hne
    rw [← hsf, ← hrc.1]
  have htot : 0 < (split_text_smart text MAX_CHARS).length :=
    List.length_pos.mpr hchne
  have htotQ : (0 : ℚ) < ((split_text_smart text MAX_CHARS).length : ℚ) := by
    exact_mod_cast htot
  refine ⟨by rw [hprog]; exact hrp, ?_, ?_⟩
  · rw [hprog, hrp, List.pairwise_map]
    refine List.Pairwise.imp ?_
      ((enumFrom_pairwise (split_text_smart text MAX_CHARS) 0).filter _)
    intro a b hab
    apply (div_lt_div_right htotQ).mpr
    have hcast : (a.1 : ℚ) < (b.1 : ℚ) := by exact_mod_cast hab
    linarith
  · intro q hq
    rw [hprog, hrp] at hq
    rcases List.mem_map.mp hq with ⟨pp, hpp, rfl⟩
    have hmem : pp ∈ enumFrom 0 (split_text_smart text MAX_CHARS) :=
      (List.mem_filter.mp hpp).1
    have hub := (enumFrom_lb (split_text_smart text MAX_CHARS) 0 pp hmem).2
    constructor
    · apply div_pos ?_ htotQ
      positivity
    · rw [div_le_one htotQ]
      have : pp.1 + 1 ≤ (split_text_smart text MAX_CHARS).length := by omega
      exact_mod_cast this

/-- The chunk indices whose synthesis produced an output file, when the
primary engine returns normally on every chunk with file outcome `f i`:
exactly the non-blank chunks whose call left a file on disk — with no
condition at all on the file's size. -/
def existingChunkFiles (f : Nat → Option Nat) (text : List Char) : List Nat :=
  ((enumFrom 0 (split_text_smart text MAX_CHARS)).filter
    (fun q => !(pyBlank q.2) && (f q.1).isSome)).map Prod.fst

lemma synthesize_allPrimarySuccess (env : SynthEnv) (f : Nat → Option Nat)
    (text : List Char) (p : String)
    (hff : get_ffmpeg_path env.fs = .ok p)
    (hp : ∀ i, env.primary i = .success (f i)) :
    (existingChunkFiles f text = [] →
      (synthesize_text_to_mp3 env text).result = .error .noChunks ∧
      (synthesize_text_to_mp3 env text).concatCall = none) ∧
    (existingChunkFiles f text ≠ [] → env.concatOk = true →
      (synthesize_text_to_mp3 env text).result = .ok (existingChunkFiles f text) ∧
      (synthesize_text_to_mp3 env text).concatCall = some (existingChunkFiles f text)) := by
  have heq := synthesize_eq env p text _ hff rfl
  have hrf := runChunks_files_success env (split_text_smart text MAX_CHARS).length f hp
    (split_text_smart text MAX_CHARS) 0 ⟨false, [], [], []⟩ rfl
  cases hrc : runChunks env (split_text_smart text MAX_CHARS).length 0
      (split_text_smart text MAX_CHARS) ⟨false, [], [], []⟩ with
  | mk st err =>
    rw [hrc] at heq hrf
    simp only [List.nil_append] at hrf
    cases err with
    | some e => exact absurd hrf.2 (by simp)
    | none =>
      have hfiles : st.files = existingChunkFiles f text := hrf.1
      have hred : synthesize_text_to_mp3 env text =
          if st.files = [] then ⟨.error .noChunks, st.events, st.progress, none⟩
          else if env.concatOk = true then ⟨.ok st.files, st.events, st.progress, some st.files⟩
          else ⟨.error .concatFailed, st.events, st.progress, some st.files⟩ := heq
      rw [hfiles] at hred
      constructor
      · intro hnil
        rw [hred]
        simp [hnil]
      · intro hnn hco
        rw [hred]
        simp [hnn, hco]

/-- C4 (amended): a chunk artifact is accepted — appended to `chunk_files`
and later passed to concatenation — iff the output file *exists*: line 178 of
`synthesize.py` checks only `chunk_file.exists()`, and neither
`_synthesize_chunk` nor the orchestrator inspects the output file's size, so
a zero-byte or near-zero output file that exists is accepted exactly like any
other (no minimum byte-size threshold is applied).  Stated for runs whose
primary calls all return normally, with `f i` the file outcome of chunk `i`
(`some size` covers `some 0`, a zero-byte file). -/
theorem chunkArtifact_existence_only_check (env : SynthEnv) (f : Nat → Option Nat)
    (text : List Char) (p : String)
    (hff : get_ffmpeg_path env.fs = .ok p)
    (hp : ∀ i, env.primary i = .success (f i)) :
    (existingChunkFiles f text = [] →
      (synthesize_text_to_mp3 env text).result = .error .noChunks ∧
      (synthesize_text_to_mp3 env text).concatCall = none) ∧
    (existingChunkFiles f text ≠ [] → env.concatOk = true →
      (synthesize_text_to_mp3 env text).result = .ok (existingChunkFiles f text) ∧
      (synthesize_text_to_mp3 env text).concatCall = some (existingChunkFiles f text)) :=
  synthesize_allPrimarySuccess env f text p hff hp

/-- C9: when a synthesis call returns without raising but leaves no output
file for some non-blank chunk `j`, `synthesize_text_to_mp3` does not fail for
that chunk: line 178's existence check silently omits it from `chunk_files`,
and as long as some other non-blank chunk `k` did produce a file, the request
succeeds with chunk `j` missing from the files handed to concatenation. -/
theorem missingFile_silently_omitted (env : SynthEnv) (f : Nat → Option Nat)
    (text : List Char) (p : String) (j k : Nat) (ck : List Char)
    (hff : get_ffmpeg_path env.fs = .ok p)
    (hp : ∀ i, env.primary i = .success (f i))
    (hco : env.concatOk = true)
    (hj : f j = none)
    (hmem : (k, ck) ∈ enumFrom 0 (split_text_smart text MAX_CHARS))
    (hcb : pyBlank ck = false)
    (hks : (f k).isSome = true) :
    (synthesize_text_to_mp3 env text).result = .ok (existingChunkFiles f text) ∧
    j ∉ existingChunkFiles f text ∧ k ∈ existingChunkFiles f text := by
  have hkmem : k ∈ existingChunkFiles f text := by
    unfold existingChunkFiles
    apply List.mem_map.mpr
    refine ⟨(k, ck), ?_, rfl⟩
    apply List.mem_filter.mpr
    exact ⟨hmem, by simp [hcb, hks]⟩
  have hne : existingChunkFiles f text ≠ [] := by
    intro hz
    rw [hz] at hkmem
    cases hkmem
  refine ⟨((synthesize_allPrimarySuccess env f text p hff hp).2 hne hco).1, ?_, hkmem⟩
  intro hjmem
  unfold existingChunkFiles at hjmem
  rcases List.mem_map.mp hjmem with ⟨q, hq, hqj⟩
  have hb2 : (f q.1).isSome = true := by
    have hcond := (List.mem_filter.mp hq).2
    simp only [Bool.and_eq_true] at hcond
    exact hcond.2
  rw [hqj, hj] at hb2
  cases hb2

lemma pyReplace_not_mem (c : Char) (l : List Char) (h : ∀ x ∈ l, x ≠ c) :
    pyReplace c l = l := by
  induction l with
  | nil => rfl
  | cons x xs ih =>
    have hx : x ≠ c := h x (List.mem_cons_self x xs)
    simp only [pyReplace, if_neg hx]
    rw [ih (fun y hy => h y (List.mem_cons_of_mem x hy))]

lemma pyReplace_append (c : Char) (l r : List Char) :
    pyReplace c (l ++ r) = pyReplace c l ++ pyReplace c r := by
  induction l with
  | nil => rfl
  | cons x xs ih =>
    by_cases hx : x = c <;> simp [pyReplace, hx, ih]

lemma splitOnChar_append_not_mem (sep : Char) (l r : List Char)
    (h : ∀ x ∈ l, x ≠ sep) :
    splitOnChar sep (l ++ r) =
      (l ++ (splitOnChar sep r).headI) :: (splitOnChar sep r).tail := by
  induction l with
  | nil =>
    cases hr : splitOnChar sep r with
    | nil => exact absurd hr (splitOnChar_ne_nil sep r)
    | cons s ss => simp [hr]
  | cons x xs ih =>
    have hx : x ≠ sep := h x (List.mem_cons_self x xs)
    have ih' := ih (fun y hy => h y (List.mem_cons_of_mem x hy))
    simp only [List.cons_append, splitOnChar, if_neg hx, List.append_eq, ih']

lemma splitOnChar_not_mem (sep : Char) (l : List Char) (h : ∀ x ∈ l, x ≠ sep) :
    splitOnChar sep l = [l] := by
  have := splitOnChar_append_not_mem sep l [] h
  simpa [splitOnChar] using this

/-- A 2001-character text: a 2000-character sentence followed by a single
trailing space.  `split_text_smart` turns it into the sentence chunk plus a
whitespace-only chunk. -/
def ctext : List Char := List.replicate 1999 'a' ++ ['.', ' ']

/-- The first chunk of `ctext`: 1999 `'a'`s and the closing period. -/
def sOne : List Char := List.replicate 1999 'a' ++ ['.']

lemma ctext_chars : ∀ x ∈ ctext, x = 'a' ∨ x = '.' ∨ x = ' ' := by
  intro x hx
  unfold ctext at hx
  rcases List.mem_append.mp hx with hx | hx
  · exact Or.inl (List.eq_of_mem_replicate hx)
  · simp at hx
    rcases hx with hx | hx
    · exact Or.inr (Or.inl hx)
    · exact Or.inr (Or.inr hx)

lemma sentencesOf_ctext : sentencesOf ctext = [sOne, [' ']] := by
  unfold sentencesOf
  rw [pyReplace_not_mem '!' ctext
      (fun x hx => by rcases ctext_chars x hx with h | h | h <;> simp [h]),
    pyReplace_not_mem '?' ctext
      (fun x hx => by rcases ctext_chars x hx with h | h | h <;> simp [h])]
  unfold ctext
  rw [pyReplace_append]
  rw [pyReplace_not_mem '.' (List.replicate 1999 'a')
      (fun x hx => by rw [List.eq_of_mem_replicate hx]; decide)]
  have hsmall : pyReplace '.' ['.', ' '] = ['.', '|', ' '] := by decide
  rw [hsmall]
  rw [splitOnChar_append_not_mem '|' (List.replicate 1999 'a') ['.', '|', ' ']
      (fun x hx => by rw [List.eq_of_mem_replicate hx]; decide)]
  have hsp : splitOnChar '|' ['.', '|', ' '] = [['.'], [' ']] := by decide
  rw [hsp]
  unfold sOne
  rfl

lemma length_ctext : ctext.length = 2001 := by
  unfold ctext
  rw [List.length_append, List.length_replicate]
  rfl

lemma length_sOne : sOne.length = 2000 := by
  unfold sOne
  rw [List.length_append, List.length_replicate]
  rfl

lemma sOne_ne_nil : sOne ≠ [] := by
  intro h
  have hl := length_sOne
  rw [h] at hl
  rw [List.length_nil] at hl
  omega

lemma accumulate_nil_eq (m : Nat) (chunks : List (List Char)) (current : List Char) :
    accumulate m [] chunks current =
      if current = [] then chunks else chunks ++ [current] := rfl

lemma accumulate_cons_fits (m : Nat) (s : List Char) (rest chunks : List (List Char))
    (current : List Char) (h : current.length + s.length ≤ m) :
    accumulate m (s :: rest) chunks current = accumulate m rest chunks (current ++ s) := by
  simp only [accumulate, if_pos h]

lemma accumulate_cons_flush (m : Nat) (s : List Char) (rest chunks : List (List Char))
    (current : List Char) (h1 : ¬(current.length + s.length ≤ m)) (h2 : ¬(s.length > m)) :
    accumulate m (s :: rest) chunks current =
      accumulate m rest (if current = [] then chunks else chunks ++ [current]) s := by
  simp only [accumulate, if_neg h1, if_neg h2]

lemma accumulate_cons_long (m : Nat) (s : List Char) (rest chunks : List (List Char))
    (current : List Char) (h1 : ¬(current.length + s.length ≤ m)) (h2 : s.length > m) :
    accumulate m (s :: rest) chunks current =
      accumulate m rest
        ((if current = [] then chunks else chunks ++ [current]) ++ hardSplit m s) [] := by
  simp only [accumulate, if_neg h1, if_pos h2]

lemma split_ctext : split_text_smart ctext MAX_CHARS = [sOne, [' ']] := by
  unfold split_text_smart MAX_CHARS
  rw [if_neg (by rw [length_ctext]; omega), sentencesOf_ctext]
  rw [accumulate_cons_fits 2000 sOne [[' ']] [] []
    (by rw [List.length_nil, length_sOne])]
  rw [List.nil_append]
  rw [accumulate_cons_flush 2000 [' '] [] [] sOne
    (by rw [length_sOne]; decide) (by decide)]
  rw [if_neg sOne_ne_nil, List.nil_append, accumulate_nil_eq]
  rfl

/-- A 2010-character text with no sentence punctuation: one over-long
"sentence" that gets hard-split at the 2000-character bound. -/
def tLong : List Char := List.replicate 2010 'a'

/-- First hard-split piece of `tLong`. -/
def cLongA : List Char := List.replicate 2000 'a'

/-- Second hard-split piece of `tLong`. -/
def cLongB : List Char := List.replicate 10 'a'

lemma replicate_ne_nil_of_pos {α : Type} (n : Nat) (a : α) (h : n ≠ 0) :
    List.replicate n a ≠ [] := by
  intro hz
  have hl := congrArg List.length hz
  rw [List.length_replicate, List.length_nil] at hl
  exact h hl

lemma length_tLong : tLong.length = 2010 := by
  unfold tLong
  rw [List.length_replicate]

lemma tLong_not_mem (c : Char) (hc : c ≠ 'a') : ∀ x ∈ tLong, x ≠ c := by
  intro x hx
  unfold tLong at hx
  rw [List.eq_of_mem_replicate hx]
  exact fun h => hc h.symm

lemma sentencesOf_tLong : sentencesOf tLong = [tLong] := by
  unfold sentencesOf
  rw [pyReplace_not_mem '!' tLong (tLong_not_mem '!' (by decide)),
    pyReplace_not_mem '?' tLong (tLong_not_mem '?' (by decide)),
    pyReplace_not_mem '.' tLong (tLong_not_mem '.' (by decide)),
    splitOnChar_not_mem '|' tLong (tLong_not_mem '|' (by decide))]

lemma hardSplit_step (m : Nat) (s : List Char) (h1 : s ≠ []) (h2 : m ≠ 0) :
    hardSplit m s = s.take m :: hardSplit m (s.drop m) := by
  rw [hardSplit.eq_def, dif_neg (by simp [h1, h2])]

lemma hardSplit_nil (m : Nat) : hardSplit m [] = [] := by
  rw [hardSplit.eq_def, dif_pos (Or.inl rfl)]

lemma hardSplit_tLong : hardSplit 2000 tLong = [cLongA, cLongB] := by
  unfold tLong
  rw [hardSplit_step 2000 _ (replicate_ne_nil_of_pos 2010 'a' (by decide)) (by decide)]
  rw [List.take_replicate, List.drop_replicate]
  rw [show min 2000 2010 = 2000 by decide, show (2010 - 2000 : Nat) = 10 by decide]
  rw [hardSplit_step 2000 _ (replicate_ne_nil_of_pos 10 'a' (by decide)) (by decide)]
  rw [List.take_replicate, List.drop_replicate]
  rw [show min 2000 10 = 10 by decide, show (10 - 2000 : Nat) = 0 by decide]
  rw [List.replicate_zero, hardSplit_nil]
  rfl

lemma split_tLong : split_text_smart tLong MAX_CHARS = [cLongA, cLongB] := by
  unfold split_text_smart MAX_CHARS
  rw [if_neg (by rw [length_tLong]; omega), sentencesOf_tLong]
  rw [accumulate_cons_long 2000 tLong [] [] []
    (by rw [List.length_nil, length_tLong]; omega) (by rw [length_tLong]; omega)]
  rw [if_pos rfl, List.nil_append, hardSplit_tLong, accumulate_nil_eq, if_pos rfl]

/-- A filesystem environment in which the bundled resolver immediately
yields a usable ffmpeg path. -/
def fsOK : FsEnv := ⟨some "ffbin", none, fun _ => true, "H"⟩

/-- Every synthesis call succeeds and writes a 5-byte file; concat succeeds. -/
def envAllOk : SynthEnv :=
  ⟨fsOK, fun _ => .success (some 5), fun _ => .success (some 5), true⟩

/-- The primary engine fails (after retries) on chunk 0 and would succeed on
later chunks; the fallback engine always succeeds. -/
def envDegrade : SynthEnv :=
  ⟨fsOK, fun i => if i = 0 then .failure else .success (some 5),
    fun _ => .success (some 7), true⟩

/-- Every primary call returns normally, but the call for chunk 0 leaves no
output file behind. -/
def envNoFile : SynthEnv :=
  ⟨fsOK, fun i => .success (if i = 0 then none else some 9),
    fun _ => .success (some 9), true⟩

/-- Every synthesis call reports success but writes a zero-byte file. -/
def envZeroByte : SynthEnv :=
  ⟨fsOK, fun _ => .success (some 0), fun _ => .success (some 0), true⟩

/-- No source of ffmpeg is available. -/
def envNoFfmpeg : SynthEnv :=
  ⟨⟨none, none, fun _ => false, "H"⟩, fun _ => .success (some 5),
    fun _ => .success (some 5), true⟩

lemma run_ctext_allOk : synthesize_text_to_mp3 envAllOk ctext =
    ⟨.ok [0], [SynthEvent.primary 0], [(((0 : ℕ) : ℚ) + 1) / ((2 : ℕ) : ℚ)], some [0]⟩ := by
  rw [synthesize_eq envAllOk "ffbin" ctext [sOne, [' ']] (by decide) split_ctext]
  rfl

lemma run_tLong_degrade : synthesize_text_to_mp3 envDegrade tLong =
    ⟨.ok [0, 1], [SynthEvent.primary 0, SynthEvent.fallback 0, SynthEvent.fallback 1],
      [(((0 : ℕ) : ℚ) + 1) / ((2 : ℕ) : ℚ), (((1 : ℕ) : ℚ) + 1) / ((2 : ℕ) : ℚ)],
      some [0, 1]⟩ := by
  rw [synthesize_eq envDegrade "ffbin" tLong [cLongA, cLongB] (by decide) split_tLong]
  rfl

lemma run_tLong_noFile : synthesize_text_to_mp3 envNoFile tLong =
    ⟨.ok [1], [SynthEvent.primary 0, SynthEvent.primary 1],
      [(((0 : ℕ) : ℚ) + 1) / ((2 : ℕ) : ℚ), (((1 : ℕ) : ℚ) + 1) / ((2 : ℕ) : ℚ)],
      some [1]⟩ := by
  rw [synthesize_eq envNoFile "ffbin" tLong [cLongA, cLongB] (by decide) split_tLong]
  rfl

/-- C8 counterexample: on the 2001-character input `ctext` (a 2000-character
sentence plus a trailing space) every call succeeds, the run returns
successfully, and there are two chunks — yet only one progress value is ever
reported, `1/2`: the trailing whitespace-only chunk is skipped together with
its progress event, so the progress sequence does not end at `1.0` and is not
emitted after each chunk. -/
theorem progress_short_of_one_cex :
    (synthesize_text_to_mp3 envAllOk ctext).result = .ok [0] ∧
    (split_text_smart ctext MAX_CHARS).length = 2 ∧
    (synthesize_text_to_mp3 envAllOk ctext).progress = [(1 : ℚ) / 2] ∧
    (1 : ℚ) / 2 < 1 := by
  rw [run_ctext_allOk]
  refine ⟨rfl, ?_, ?_, by norm_num⟩
  · rw [split_ctext]
    rfl
  · show [(((0 : ℕ) : ℚ) + 1) / ((2 : ℕ) : ℚ)] = [(1 : ℚ) / 2]
    norm_num

theorem progress_fraction_per_nonblank_chunk_witness :
    List.Pairwise (fun a b : ℚ => a < b) (synthesize_text_to_mp3 envAllOk ctext).progress :=
  (progress_fraction_per_nonblank_chunk envAllOk ctext [0] (by rw [run_ctext_allOk])).2.1

theorem degradeOnce_sticky_fallback_witness :
    (synthesize_text_to_mp3 envDegrade tLong).events =
      [SynthEvent.primary 0] ++ SynthEvent.fallback 0 :: [SynthEvent.fallback 1] ∧
    SynthEvent.primary 5 ∉ [SynthEvent.fallback 1] :=
  ⟨by rw [run_tLong_degrade]; rfl, (degradeOnce_sticky_fallback envDegrade tLong).1
    [SynthEvent.primary 0] 0 [SynthEvent.fallback 1] (by rw [run_tLong_degrade]; rfl) 5⟩


theorem missingFile_silently_omitted_witness :
    (synthesize_text_to_mp3 envNoFile tLong).result =
      .ok (existingChunkFiles (fun i => if i = 0 then none else some 9) tLong) ∧
    0 ∉ existingChunkFiles (fun i => if i = 0 then none else some 9) tLong ∧
    1 ∈ existingChunkFiles (fun i => if i = 0 then none else some 9) tLong :=
  missingFile_silently_omitted envNoFile (fun i => if i = 0 then none else some 9)
    tLong "ffbin" 0 1 cLongB (by decide) (fun i => rfl) rfl rfl
    (by rw [split_tLong]
        show (1, cLongB) ∈ (0, cLongA) :: (1, cLongB) :: []
        exact List.mem_cons_of_mem _ (List.mem_cons_self _ _))
    (by decide) rfl

/-- C4 counterexample: with every synthesis call reporting success but
writing a zero-byte output file, the zero-byte chunk artifact is accepted:
the request on `"Hello."` succeeds and the zero-byte file is passed to
concatenation, instead of being treated as a synthesis failure. -/
theorem zeroByteArtifact_accepted_cex :
    (synthesize_text_to_mp3 envZeroByte "Hello.".data).result = .ok [0] ∧
    (synthesize_text_to_mp3 envZeroByte "Hello.".data).concatCall = some [0] :=
  ⟨rfl, rfl⟩

theorem chunkArtifact_existence_only_check_witness :
    existingChunkFiles (fun _ => some 0) "Hello!".data ≠ [] ∧
    (synthesize_text_to_mp3 envZeroByte "Hello!".data).result =
      .ok (existingChunkFiles (fun _ => some 0) "Hello!".data) :=
  ⟨by decide, ((chunkArtifact_existence_only_check envZeroByte (fun _ => some 0)
      "Hello!".data "ffbin" (by decide) (fun i => rfl)).2 (by decide) rfl).1⟩

theorem blankInput_failsFast_witness :
    pyBlank "  ".data = true ∧
    synthesize_text_to_mp3 envAllOk "  ".data = ⟨.error .noChunks, [], [], none⟩ :=
  ⟨by decide, blankInput_failsFast envAllOk "  ".data "ffbin" (by decide) (by decide)⟩

theorem ffmpeg_discovery_order_witness :
    get_ffmpeg_path envNoFfmpeg.fs = .error .ffmpegNotFound ∧
    synthesize_text_to_mp3 envNoFfmpeg "Hi.".data =
      ⟨.error .ffmpegNotFound, [], [], none⟩ :=
  ⟨by decide, ((ffmpeg_discovery_order envNoFfmpeg "Hi.".data).2.2.2 .ffmpegNotFound
      (by decide)).2⟩
